import Mathlib

/-!
Verification of the `mkspritesheet` rectangle-packing core.

The development shallowly embeds `mkspritesheet.py`:

* `Rect` with `overlaps`, `size`, `fits`, `split` (lines 10-40 of the source);
* `Region` with `find_fit`, `is_empty`, `remove_rect` (lines 42-76);
* the packer of `main` (lines 124-162): the sort key, the initial sizing
  loops, and the grow-and-retry placement loop.

Python integers are embedded as `Int`.  The two `while` loops of the sizing
phase and the outer retry loop are embedded with an explicit fuel argument;
running out of fuel is reported as an error (`PackErr.exhausted`), so any
`.ok` result of `mainPack` corresponds exactly to a terminating run of the
Python program.  The `ValueError` that Python's `max()` raises on an empty
image list is embedded as `PackErr.noImages`.
-/

/-- `Rect` from the source: a 2D rectangle given by four integer coordinates. -/
structure Rect where
  x1 : Int
  y1 : Int
  x2 : Int
  y2 : Int
deriving DecidableEq, Repr

/-- `Rect.overlaps`: strict inequalities on all four half-plane tests. -/
def Rect.overlaps (a b : Rect) : Bool :=
  a.x2 > b.x1 && b.x2 > a.x1 && a.y2 > b.y1 && b.y2 > a.y1

/-- `Rect.size`: `(x2 - x1, y2 - y1)`. -/
def Rect.size (r : Rect) : Int × Int :=
  (r.x2 - r.x1, r.y2 - r.y1)

/-- `Rect.fits`: `W <= (x2 - x1) and H <= (y2 - y1)`. -/
def Rect.fits (r : Rect) (W H : Int) : Bool :=
  W ≤ r.x2 - r.x1 && H ≤ r.y2 - r.y1

/-- The list of candidate strips built by `Rect.split` (the four `if`s of
lines 32-39, appended in source order: top, left, right, bottom). -/
def Rect.stripList (a b : Rect) : List Rect :=
  (if b.y1 > a.y1 then [Rect.mk a.x1 a.y1 a.x2 b.y1] else []) ++
  (if b.x1 > a.x1 then [Rect.mk a.x1 a.y1 b.x1 a.y2] else []) ++
  (if b.x2 < a.x2 then [Rect.mk b.x2 a.y1 a.x2 a.y2] else []) ++
  (if b.y2 < a.y2 then [Rect.mk a.x1 b.y2 a.x2 a.y2] else [])

/-- `Rect.split`: `None` when the rectangles do not overlap, otherwise the
list of remainder strips. -/
def Rect.split (a b : Rect) : Option (List Rect) :=
  if a.overlaps b then some (a.stripList b) else none

/-- The set of integer points covered by a rectangle
(the half-open box `[x1,x2) × [y1,y2)`). -/
def Rect.pts (r : Rect) : Set (Int × Int) :=
  {p | r.x1 ≤ p.1 ∧ p.1 < r.x2 ∧ r.y1 ≤ p.2 ∧ p.2 < r.y2}

/-- `Region` from the source: a leaf (`children is None`) is fully free
space; an internal node carries the ordered child list produced by splits. -/
inductive Region where
  | leaf : Rect → Region
  | node : Rect → List Region → Region

/-- The `rect` attribute of a `Region`. -/
def Region.rect : Region → Rect
  | .leaf r => r
  | .node r _ => r

/-- `Region.is_empty`: children exist and the child list is empty. -/
def Region.is_empty : Region → Bool
  | .leaf _ => false
  | .node _ cs => cs.isEmpty

mutual
/-- `Region.find_fit`: prune on `fits`; a leaf yields the rect anchored at
its top-left corner; an internal node tries its children in order. -/
def Region.find_fit : Region → Int → Int → Option Rect
  | .leaf r, W, H =>
      if r.fits W H then some (Rect.mk r.x1 r.y1 (r.x1 + W) (r.y1 + H)) else none
  | .node r cs, W, H =>
      if r.fits W H then findFitL cs W H else none

/-- The `for child in children` loop of `Region.find_fit`: first success. -/
def findFitL : List Region → Int → Int → Option Rect
  | [], _, _ => none
  | c :: cs, W, H =>
      match c.find_fit W H with
      | some result => some result
      | none => findFitL cs W H
end

mutual
/-- `Region.remove_rect`: a leaf is split (when `split` succeeds) into one
child per strip; an internal node whose rect overlaps recurses into every
child and discards children that became empty. -/
def Region.remove_rect : Region → Rect → Region
  | .leaf r, rect =>
      match r.split rect with
      | none => .leaf r
      | some splitted => .node r (splitted.map Region.leaf)
  | .node r cs, rect =>
      if r.overlaps rect then
        .node r ((removeRectL cs rect).filter (fun c => !c.is_empty))
      else
        .node r cs

/-- The `for child in children` loop of `Region.remove_rect`. -/
def removeRectL : List Region → Rect → List Region
  | [], _ => []
  | c :: cs, rect => c.remove_rect rect :: removeRectL cs rect
end

mutual
/-- The rects of the leaves of a region tree, in depth-first order. -/
def Region.leafRects : Region → List Rect
  | .leaf r => [r]
  | .node _ cs => leafRectsL cs

/-- `Region.leafRects` over a child list. -/
def leafRectsL : List Region → List Rect
  | [] => []
  | c :: cs => c.leafRects ++ leafRectsL cs
end

mutual
/-- The set of points still free in a region: the union of its leaves. -/
def Region.freePts : Region → Set (Int × Int)
  | .leaf r => r.pts
  | .node _ cs => freePtsL cs

/-- `Region.freePts` over a child list. -/
def freePtsL : List Region → Set (Int × Int)
  | [] => ∅
  | c :: cs => c.freePts ∪ freePtsL cs
end

mutual
/-- Structural sanity of a region tree: every child rect is contained
(coordinate-wise) in its parent rect.  This holds for every tree the packer
builds, since split strips stay inside the rect being split. -/
def Region.nested : Region → Prop
  | .leaf _ => True
  | .node r cs => nestedL r cs

/-- `Region.nested` over a child list. -/
def nestedL : Rect → List Region → Prop
  | _, [] => True
  | r, c :: cs =>
      (r.x1 ≤ c.rect.x1 ∧ c.rect.x2 ≤ r.x2 ∧ r.y1 ≤ c.rect.y1 ∧ c.rect.y2 ≤ r.y2) ∧
      c.nested ∧ nestedL r cs
end

/-- An image entry: the cropped width and height of a source image
(`ImageInfo` keeps the cropped image whose `size` is `(w, h)`). -/
structure ImageEntry where
  w : Int
  h : Int
deriving DecidableEq, Repr

/-- `ImageInfo.actual_size = (max(W, H), min(W, H))`. -/
def ImageEntry.actual (e : ImageEntry) : Int × Int :=
  (max e.w e.h, min e.w e.h)

/-- `ImageInfo.area = W * H`. -/
def ImageEntry.area (e : ImageEntry) : Int :=
  e.w * e.h

/-- Lexicographic strict comparison of the Python sort key
`(area, actual_size)` (tuples compare lexicographically). -/
def keyLt (a b : ImageEntry) : Bool :=
  a.area < b.area ||
    (a.area == b.area &&
      (a.actual.1 < b.actual.1 ||
        (a.actual.1 == b.actual.1 && a.actual.2 < b.actual.2)))

/-- Stable insertion for descending order: `x` goes before the first
element whose key is strictly larger. -/
def insertDesc (x : ImageEntry) : List ImageEntry → List ImageEntry
  | [] => [x]
  | y :: ys => if keyLt x y then y :: insertDesc x ys else x :: y :: ys

/-- `images.sort(key=attrgetter('area', 'actual_size'), reverse=True)`:
a stable descending sort on the key `(area, actual_size)`.  Insertion sort
is used here; it produces the same list as any stable descending sort. -/
def sortEntries (l : List ImageEntry) : List ImageEntry :=
  l.foldr insertDesc []

/-- `max(im.actual_size[0] for im in images)`: `none` on the empty list
(where Python raises `ValueError`). -/
def maxLong : List ImageEntry → Option Int
  | [] => none
  | e :: es => some ((es.map (fun x => x.actual.1)).foldl max e.actual.1)

/-- `sum(im.area for im in images)`. -/
def totalArea (l : List ImageEntry) : Int :=
  (l.map ImageEntry.area).sum

/-- Errors of the embedded packer: the `ValueError` raised by `max()` on an
empty list, and exhaustion of the loop fuel (the Python loops in question
simply keep running; a terminated Python run is a run with enough fuel). -/
inductive PackErr where
  | noImages : PackErr
  | exhausted : PackErr
deriving DecidableEq, Repr

/-- `while output_W < max_W: output_W *= 2` (fuel-indexed). -/
def growW (maxW : Int) : Nat → Int → Option Int
  | 0, W => if W < maxW then none else some W
  | fuel + 1, W => if W < maxW then growW maxW fuel (W * 2) else some W

/-- `while output_W * output_H < total_area: double the smaller (W on ties)`
(fuel-indexed). -/
def growArea (A : Int) : Nat → Int → Int → Option (Int × Int)
  | 0, W, H => if W * H < A then none else some (W, H)
  | fuel + 1, W, H =>
      if W * H < A then
        if W ≤ H then growArea A fuel (W * 2) H else growArea A fuel W (H * 2)
      else some (W, H)

/-- One placement pass (the `for im in images` loop of lines 141-155):
a zero-by-zero actual size is assigned the degenerate origin rect, otherwise
`find_fit` is tried in the natural orientation and then rotated; a successful
placement is removed from the region; a failed one aborts the pass. -/
def placeAll : Region → List ImageEntry → Option (List (ImageEntry × Rect))
  | _, [] => some []
  | reg, e :: es =>
      let sz := e.actual
      let rectOpt : Option Rect :=
        if sz.1 == 0 && sz.2 == 0 then some (Rect.mk 0 0 0 0)
        else
          match reg.find_fit sz.1 sz.2 with
          | some r => some r
          | none => reg.find_fit sz.2 sz.1
      match rectOpt with
      | none => none
      | some r => (placeAll (reg.remove_rect r) es).map (fun prs => (e, r) :: prs)

/-- The `while True` retry loop of lines 138-162: attempt a full pass on a
fresh region over the current canvas; on failure double the dimension that
is not larger than the other (W preferred on ties) and retry. -/
def attempts (images : List ImageEntry) : Nat → Int → Int → Except PackErr (Int × Int × List (ImageEntry × Rect))
  | fuel, W, H =>
      match placeAll (Region.leaf (Rect.mk 0 0 W H)) images with
      | some prs => .ok (W, H, prs)
      | none =>
          match fuel with
          | 0 => .error .exhausted
          | f + 1 => if W ≤ H then attempts images f (W * 2) H else attempts images f W (H * 2)

/-- The packing core of `main` (lines 124-162): sort, compute `max_W` and
`total_area`, run the two sizing loops from `(1, 1)`, then the placement
retry loop.  Returns the final canvas `(W, H)` and each sorted entry with
its assigned rect. -/
def mainPack (fuel : Nat) (files : List ImageEntry) : Except PackErr (Int × Int × List (ImageEntry × Rect)) :=
  let images := sortEntries files
  match maxLong images with
  | none => .error .noImages
  | some maxW =>
      match growW maxW fuel 1 with
      | none => .error .exhausted
      | some W0 =>
          match growArea (totalArea images) fuel W0 1 with
          | none => .error .exhausted
          | some (W1, H1) => attempts images fuel W1 H1

/-- The `transposed` flag computed while compositing (line 177):
`rect.size() != im.size`, where `im.size` is the cropped image size. -/
def transposedFlag (e : ImageEntry) (r : Rect) : Bool :=
  r.size != (e.w, e.h)

instance {e a : Type} [DecidableEq e] [DecidableEq a] : DecidableEq (Except e a) := fun x y =>
  match x, y with
  | .ok v, .ok w => if h : v = w then isTrue (by rw [h]) else isFalse (by intro hc; cases hc; exact h rfl)
  | .error v, .error w => if h : v = w then isTrue (by rw [h]) else isFalse (by intro hc; cases hc; exact h rfl)
  | .ok _, .error _ => isFalse (by intro hc; cases hc)
  | .error _, .ok _ => isFalse (by intro hc; cases hc)

/-- Coordinate-wise containment of rectangles. -/
def SubR (a b : Rect) : Prop :=
  b.x1 ≤ a.x1 ∧ a.x2 ≤ b.x2 ∧ b.y1 ≤ a.y1 ∧ a.y2 ≤ b.y2

instance (a b : Rect) : Decidable (SubR a b) := by unfold SubR; infer_instance

/-- A well-formed rectangle lying inside the canvas `[0,W) × [0,H)`. -/
def InBounds (r : Rect) (W H : Int) : Prop :=
  0 ≤ r.x1 ∧ r.x1 ≤ r.x2 ∧ r.x2 ≤ W ∧ 0 ≤ r.y1 ∧ r.y1 ≤ r.y2 ∧ r.y2 ≤ H

instance (r : Rect) (W H : Int) : Decidable (InBounds r W H) := by unfold InBounds; infer_instance

/-- The points covered by any rectangle of a list. -/
def listPts (l : List Rect) : Set (Int × Int) :=
  {p | ∃ s ∈ l, p ∈ s.pts}

mutual
/-- The spec's node invariant, relative to the set `S` of already removed
points: at an internal node the children's free points are exactly the
node rect minus `S`, recursively; an untouched leaf is disjoint from `S`. -/
def Region.freeInv : Region → Set (Int × Int) → Prop
  | .leaf r, S => r.pts ∩ S = ∅
  | .node r cs, S => freePtsL cs = r.pts \ S ∧ freeInvL cs S

/-- `Region.freeInv` over a child list. -/
def freeInvL : List Region → Set (Int × Int) → Prop
  | [], _ => True
  | c :: cs, S => c.freeInv S ∧ freeInvL cs S
end

theorem overlaps_iff (a b : Rect) :
    a.overlaps b = true ↔ b.x1 < a.x2 ∧ a.x1 < b.x2 ∧ b.y1 < a.y2 ∧ a.y1 < b.y2 := by
  simp [Rect.overlaps, and_assoc]

theorem overlaps_eq_false_iff (a b : Rect) :
    a.overlaps b = false ↔ ¬(b.x1 < a.x2 ∧ a.x1 < b.x2 ∧ b.y1 < a.y2 ∧ a.y1 < b.y2) := by
  rw [← overlaps_iff]
  cases h : a.overlaps b <;> simp

theorem overlaps_comm (a b : Rect) : a.overlaps b = b.overlaps a := by
  cases h : a.overlaps b with
  | true =>
      rw [overlaps_iff] at h
      exact ((overlaps_iff b a).mpr (by omega)).symm
  | false =>
      rw [overlaps_eq_false_iff] at h
      exact ((overlaps_eq_false_iff b a).mpr (by omega)).symm

theorem fits_iff (r : Rect) (W H : Int) :
    r.fits W H = true ↔ W ≤ r.x2 - r.x1 ∧ H ≤ r.y2 - r.y1 := by
  simp [Rect.fits]

theorem mem_pts_iff (r : Rect) (p : Int × Int) :
    p ∈ r.pts ↔ r.x1 ≤ p.1 ∧ p.1 < r.x2 ∧ r.y1 ≤ p.2 ∧ p.2 < r.y2 := Iff.rfl

/-- Overlap is monotone when the first rectangle grows. -/
theorem overlaps_mono_left {a a' b : Rect} (hsub : SubR a a')
    (h : a.overlaps b = true) : a'.overlaps b = true := by
  rw [overlaps_iff] at h ⊢
  rcases hsub with ⟨h1, h2, h3, h4⟩
  omega

/-- Overlap is monotone when the second rectangle grows. -/
theorem overlaps_mono_right {a b b' : Rect} (hsub : SubR b b')
    (h : a.overlaps b = true) : a.overlaps b' = true := by
  rw [overlaps_iff] at h ⊢
  rcases hsub with ⟨h1, h2, h3, h4⟩
  omega

/-- Rectangles that do not overlap have disjoint point sets. -/
theorem not_overlaps_disjoint {a b : Rect} (h : a.overlaps b = false) :
    ∀ p, p ∈ a.pts → p ∉ b.pts := by
  rw [overlaps_eq_false_iff] at h
  intro p hpa hpb
  rw [mem_pts_iff] at hpa hpb
  omega

theorem pts_mono {a b : Rect} (hsub : SubR a b) : a.pts ⊆ b.pts := by
  intro p hp
  rw [mem_pts_iff] at hp ⊢
  rcases hsub with ⟨h1, h2, h3, h4⟩
  omega

/-- Membership in the strip list of `Rect.split`. -/
theorem mem_stripList_iff {a b s : Rect} :
    s ∈ a.stripList b ↔
      (a.y1 < b.y1 ∧ s = Rect.mk a.x1 a.y1 a.x2 b.y1) ∨
      (a.x1 < b.x1 ∧ s = Rect.mk a.x1 a.y1 b.x1 a.y2) ∨
      (b.x2 < a.x2 ∧ s = Rect.mk b.x2 a.y1 a.x2 a.y2) ∨
      (b.y2 < a.y2 ∧ s = Rect.mk a.x1 b.y2 a.x2 a.y2) := by
  simp only [Rect.stripList, List.mem_append]
  constructor
  · intro h
    rcases h with ((h | h) | h) | h <;>
      [skip; skip; skip; skip] <;>
      first
      | (split at h <;> simp_all)
  · intro h
    rcases h with ⟨hc, rfl⟩ | ⟨hc, rfl⟩ | ⟨hc, rfl⟩ | ⟨hc, rfl⟩ <;> simp [hc]

/-- Each remainder strip stays inside the rectangle being split. -/
theorem strip_subR {a b s : Rect} (hov : a.overlaps b = true)
    (hs : s ∈ a.stripList b) : SubR s a := by
  rw [overlaps_iff] at hov
  rcases mem_stripList_iff.mp hs with ⟨hc, rfl⟩ | ⟨hc, rfl⟩ | ⟨hc, rfl⟩ | ⟨hc, rfl⟩ <;>
    (dsimp only [SubR]; omega)

/-- No remainder strip overlaps the removed rectangle. -/
theorem strip_not_overlaps {a b s : Rect} (hs : s ∈ a.stripList b) :
    s.overlaps b = false := by
  rcases mem_stripList_iff.mp hs with ⟨hc, rfl⟩ | ⟨hc, rfl⟩ | ⟨hc, rfl⟩ | ⟨hc, rfl⟩ <;>
    (rw [overlaps_eq_false_iff]; dsimp only; omega)

/-- Remainder strips of an in-bounds rectangle are in bounds. -/
theorem strip_inBounds {a b s : Rect} {W H : Int} (hov : a.overlaps b = true)
    (hs : s ∈ a.stripList b) (hb : InBounds a W H) : InBounds s W H := by
  rw [overlaps_iff] at hov
  rcases hb with ⟨h1, h2, h3, h4, h5, h6⟩
  rcases mem_stripList_iff.mp hs with ⟨hc, rfl⟩ | ⟨hc, rfl⟩ | ⟨hc, rfl⟩ | ⟨hc, rfl⟩ <;>
    (dsimp only [InBounds]; omega)

/-- The strips of a split cover exactly the difference of the point sets. -/
theorem stripList_pts {a b : Rect} (hov : a.overlaps b = true) :
    listPts (a.stripList b) = a.pts \ b.pts := by
  rw [overlaps_iff] at hov
  ext p
  simp only [listPts, Set.mem_setOf_eq, Set.mem_diff, Rect.pts]
  constructor
  · rintro ⟨s, hs, hp⟩
    rcases mem_stripList_iff.mp hs with ⟨hc, rfl⟩ | ⟨hc, rfl⟩ | ⟨hc, rfl⟩ | ⟨hc, rfl⟩ <;>
      (simp only [Rect.pts, Set.mem_setOf_eq] at hp;
       exact ⟨by omega, by omega⟩)
  · rintro ⟨hpa, hpb⟩
    by_cases c1 : p.2 < b.y1
    · refine ⟨Rect.mk a.x1 a.y1 a.x2 b.y1, mem_stripList_iff.mpr (Or.inl ⟨by omega, rfl⟩), ?_⟩
      simp only [Rect.pts, Set.mem_setOf_eq]
      omega
    by_cases c2 : p.1 < b.x1
    · refine ⟨Rect.mk a.x1 a.y1 b.x1 a.y2,
        mem_stripList_iff.mpr (Or.inr (Or.inl ⟨by omega, rfl⟩)), ?_⟩
      simp only [Rect.pts, Set.mem_setOf_eq]
      omega
    by_cases c3 : b.x2 ≤ p.1
    · refine ⟨Rect.mk b.x2 a.y1 a.x2 a.y2,
        mem_stripList_iff.mpr (Or.inr (Or.inr (Or.inl ⟨by omega, rfl⟩))), ?_⟩
      simp only [Rect.pts, Set.mem_setOf_eq]
      omega
    · refine ⟨Rect.mk a.x1 b.y2 a.x2 a.y2,
        mem_stripList_iff.mpr (Or.inr (Or.inr (Or.inr ⟨by omega, rfl⟩))), ?_⟩
      simp only [Rect.pts, Set.mem_setOf_eq]
      omega

theorem SubR_refl (a : Rect) : SubR a a := ⟨le_refl _, le_refl _, le_refl _, le_refl _⟩

theorem SubR_trans {a b c : Rect} (h1 : SubR a b) (h2 : SubR b c) : SubR a c := by
  rcases h1 with ⟨p1, p2, p3, p4⟩
  rcases h2 with ⟨q1, q2, q3, q4⟩
  exact ⟨by omega, by omega, by omega, by omega⟩

theorem split_eq_some_iff {a b : Rect} {l : List Rect} :
    a.split b = some l ↔ a.overlaps b = true ∧ l = a.stripList b := by
  simp only [Rect.split]
  split
  case isTrue h =>
    simp only [Option.some.injEq]
    exact ⟨fun he => ⟨h, he.symm⟩, fun hp => hp.2.symm⟩
  case isFalse h =>
    constructor
    · intro he; cases he
    · intro hp; exact absurd hp.1 h

theorem split_eq_none_iff {a b : Rect} :
    a.split b = none ↔ a.overlaps b = false := by
  simp only [Rect.split]
  split <;> simp_all

/-- `remove_rect` never changes the rect of a node. -/
theorem remove_rect_rect (t : Region) (r : Rect) : (t.remove_rect r).rect = t.rect := by
  cases t with
  | leaf a =>
      simp only [Region.remove_rect]
      cases h : a.split r <;> simp [Region.rect]
  | node a cs =>
      simp only [Region.remove_rect]
      split <;> simp [Region.rect]

mutual
/-- A successful `find_fit` returns the rect of width `W` and height `H`
anchored at the top-left corner of some leaf that it fits into. -/
theorem find_fit_spec : ∀ (t : Region) (W H : Int) (r : Rect),
    t.find_fit W H = some r →
    ∃ L ∈ t.leafRects, L.fits W H = true ∧ r = Rect.mk L.x1 L.y1 (L.x1 + W) (L.y1 + H)
  | .leaf a, W, H, r => by
      intro h
      simp only [Region.find_fit] at h
      split at h
      · cases h
        exact ⟨a, by simp [Region.leafRects], by assumption, rfl⟩
      · cases h
  | .node a cs, W, H, r => by
      intro h
      simp only [Region.find_fit] at h
      split at h
      · obtain ⟨L, hL, hf, hr⟩ := findFitL_spec cs W H r h
        exact ⟨L, by simpa [Region.leafRects] using hL, hf, hr⟩
      · cases h

theorem findFitL_spec : ∀ (l : List Region) (W H : Int) (r : Rect),
    findFitL l W H = some r →
    ∃ L ∈ leafRectsL l, L.fits W H = true ∧ r = Rect.mk L.x1 L.y1 (L.x1 + W) (L.y1 + H)
  | [], W, H, r => by intro h; cases h
  | c :: cs, W, H, r => by
      intro h
      simp only [findFitL] at h
      cases hc : c.find_fit W H with
      | some res =>
          rw [hc] at h
          cases h
          obtain ⟨L, hL, hf, hr⟩ := find_fit_spec c W H r hc
          exact ⟨L, by simp [leafRectsL, hL], hf, hr⟩
      | none =>
          rw [hc] at h
          obtain ⟨L, hL, hf, hr⟩ := findFitL_spec cs W H r h
          exact ⟨L, by simp [leafRectsL, hL], hf, hr⟩
end

mutual
/-- In a nested tree every leaf rect is contained in the root rect. -/
theorem nested_leaf_sub : ∀ (t : Region), t.nested → ∀ L ∈ t.leafRects, SubR L t.rect
  | .leaf a => by
      intro _ L hL
      simp only [Region.leafRects, List.mem_singleton] at hL
      subst hL
      exact SubR_refl L
  | .node a cs => by
      intro hn L hL
      simp only [Region.leafRects] at hL
      exact nestedL_leaf_sub a cs hn L hL

theorem nestedL_leaf_sub : ∀ (a : Rect) (l : List Region), nestedL a l →
    ∀ L ∈ leafRectsL l, SubR L a
  | a, [] => by intro _ L hL; simp [leafRectsL] at hL
  | a, c :: cs => by
      intro hn L hL
      simp only [nestedL] at hn
      obtain ⟨hsub, hnc, hns⟩ := hn
      simp only [leafRectsL, List.mem_append] at hL
      cases hL with
      | inl h => exact SubR_trans (nested_leaf_sub c hnc L h) hsub
      | inr h => exact nestedL_leaf_sub a cs hns L h
end

theorem nestedL_filter {a : Rect} {l : List Region} (p : Region → Bool)
    (hn : nestedL a l) : nestedL a (l.filter p) := by
  induction l with
  | nil => simpa [List.filter] using hn
  | cons c cs ih =>
      simp only [nestedL] at hn
      obtain ⟨hsub, hnc, hns⟩ := hn
      simp only [List.filter]
      cases p c
      · exact ih hns
      · exact ⟨hsub, hnc, ih hns⟩

theorem nestedL_map_leaf {a : Rect} {l : List Rect} (h : ∀ s ∈ l, SubR s a) :
    nestedL a (l.map Region.leaf) := by
  induction l with
  | nil => simp [nestedL]
  | cons s ss ih =>
      simp only [List.map, nestedL]
      refine ⟨?_, trivial, ih fun x hx => h x (by simp [hx])⟩
      have hs := h s (by simp)
      exact ⟨hs.1, hs.2.1, hs.2.2.1, hs.2.2.2⟩

mutual
/-- `remove_rect` preserves nestedness. -/
theorem nested_remove : ∀ (t : Region) (r : Rect), t.nested → (t.remove_rect r).nested
  | .leaf a, r => by
      intro _
      simp only [Region.remove_rect]
      cases h : a.split r with
      | none => trivial
      | some l =>
          obtain ⟨hov, rfl⟩ := split_eq_some_iff.mp h
          simp only [Region.nested]
          exact nestedL_map_leaf fun s hs => strip_subR hov hs
  | .node a cs, r => by
      intro hn
      simp only [Region.remove_rect]
      split
      · simp only [Region.nested]
        exact nestedL_filter _ (nestedL_remove a cs r hn)
      · exact hn

theorem nestedL_remove : ∀ (a : Rect) (l : List Region) (r : Rect),
    nestedL a l → nestedL a (removeRectL l r)
  | a, [], r => by intro h; simpa [removeRectL] using h
  | a, c :: cs, r => by
      intro hn
      simp only [nestedL] at hn
      obtain ⟨hsub, hnc, hns⟩ := hn
      simp only [removeRectL, nestedL]
      refine ⟨?_, nested_remove c r hnc, nestedL_remove a cs r hns⟩
      rw [remove_rect_rect]
      exact hsub
end

theorem listPts_nil : listPts [] = ∅ := by
  ext p; simp [listPts]

theorem listPts_cons (s : Rect) (l : List Rect) :
    listPts (s :: l) = s.pts ∪ listPts l := by
  ext p
  simp only [listPts, Set.mem_setOf_eq, List.mem_cons, Set.mem_union]
  constructor
  · rintro ⟨x, hx | hx, hp⟩
    · exact Or.inl (hx ▸ hp)
    · exact Or.inr ⟨x, hx, hp⟩
  · rintro (hp | ⟨x, hx, hp⟩)
    · exact ⟨s, Or.inl rfl, hp⟩
    · exact ⟨x, Or.inr hx, hp⟩

theorem leafRectsL_map_leaf (l : List Rect) :
    leafRectsL (l.map Region.leaf) = l := by
  induction l with
  | nil => simp [leafRectsL]
  | cons s ss ih => simp [leafRectsL, Region.leafRects, ih]

theorem leafRectsL_filter_sub {l : List Region} (p : Region → Bool) :
    ∀ L ∈ leafRectsL (l.filter p), L ∈ leafRectsL l := by
  induction l with
  | nil => simp [List.filter]
  | cons c cs ih =>
      intro L hL
      simp only [List.filter] at hL
      simp only [leafRectsL, List.mem_append]
      cases hp : p c
      · rw [hp] at hL
        exact Or.inr (ih L hL)
      · rw [hp] at hL
        simp only [leafRectsL, List.mem_append] at hL
        cases hL with
        | inl h => exact Or.inl h
        | inr h => exact Or.inr (ih L h)

mutual
/-- After `remove_rect rect`, no leaf of the tree overlaps `rect` any more,
and every leaf is an old leaf or a strip of an old leaf that overlapped. -/
theorem leafRects_remove : ∀ (t : Region) (rect : Rect), t.nested →
    ∀ L' ∈ (t.remove_rect rect).leafRects,
      L'.overlaps rect = false ∧
      ∃ L ∈ t.leafRects, L' = L ∨ (L.overlaps rect = true ∧ L' ∈ L.stripList rect)
  | .leaf a, rect => by
      intro _ L' hL'
      simp only [Region.remove_rect] at hL'
      cases h : a.split rect with
      | none =>
          rw [h] at hL'
          simp only [Region.leafRects, List.mem_singleton] at hL'
          subst hL'
          exact ⟨split_eq_none_iff.mp h, L', by simp [Region.leafRects], Or.inl rfl⟩
      | some l =>
          obtain ⟨hov, rfl⟩ := split_eq_some_iff.mp h
          rw [h] at hL'
          simp only [Region.leafRects, leafRectsL_map_leaf] at hL'
          exact ⟨strip_not_overlaps hL', a, by simp [Region.leafRects], Or.inr ⟨hov, hL'⟩⟩
  | .node a cs, rect => by
      intro hn L' hL'
      simp only [Region.remove_rect] at hL'
      split at hL'
      · simp only [Region.leafRects] at hL'
        have hL2 := leafRectsL_filter_sub _ L' hL'
        obtain ⟨h1, L, hL, h2⟩ := leafRectsL_remove cs rect a hn L' hL2
        exact ⟨h1, L, by simpa [Region.leafRects] using hL, h2⟩
      · rename_i hna
        simp only [Region.leafRects] at hL'
        have hov : L'.overlaps rect = false := by
          cases hc : L'.overlaps rect with
          | false => rfl
          | true =>
              have hsub := nestedL_leaf_sub a cs hn L' hL'
              exact absurd (overlaps_mono_left hsub hc) hna
        exact ⟨hov, L', by simpa [Region.leafRects] using hL', Or.inl rfl⟩

theorem leafRectsL_remove : ∀ (l : List Region) (rect : Rect) (a : Rect), nestedL a l →
    ∀ L' ∈ leafRectsL (removeRectL l rect),
      L'.overlaps rect = false ∧
      ∃ L ∈ leafRectsL l, L' = L ∨ (L.overlaps rect = true ∧ L' ∈ L.stripList rect)
  | [], rect, a => by intro _ L' hL'; simp [removeRectL, leafRectsL] at hL'
  | c :: cs, rect, a => by
      intro hn L' hL'
      simp only [nestedL] at hn
      obtain ⟨hsub, hnc, hns⟩ := hn
      simp only [removeRectL, leafRectsL, List.mem_append] at hL'
      cases hL' with
      | inl h =>
          obtain ⟨h1, L, hL, h2⟩ := leafRects_remove c rect hnc L' h
          exact ⟨h1, L, by simp [leafRectsL, hL], h2⟩
      | inr h =>
          obtain ⟨h1, L, hL, h2⟩ := leafRectsL_remove cs rect a hns L' h
          exact ⟨h1, L, by simp [leafRectsL, hL], h2⟩
end

theorem freePts_isEmpty {c : Region} (h : c.is_empty = true) : c.freePts = ∅ := by
  cases c with
  | leaf a => simp [Region.is_empty] at h
  | node a cs =>
      simp only [Region.is_empty, List.isEmpty_iff] at h
      subst h
      simp [Region.freePts, freePtsL]

theorem freePtsL_filter_not_empty (l : List Region) :
    freePtsL (l.filter fun c => !c.is_empty) = freePtsL l := by
  induction l with
  | nil => simp [List.filter]
  | cons c cs ih =>
      simp only [List.filter]
      cases hp : c.is_empty
      · simp only [Bool.not_false, freePtsL, ih]
      · simp only [Bool.not_true, freePtsL, ih, freePts_isEmpty hp, Set.empty_union]

theorem freePtsL_map_leaf (l : List Rect) :
    freePtsL (l.map Region.leaf) = listPts l := by
  induction l with
  | nil => simp [freePtsL, listPts_nil]
  | cons s ss ih => simp [freePtsL, Region.freePts, ih, listPts_cons]

mutual
/-- In a nested tree the free points lie inside the root rect. -/
theorem freePts_sub : ∀ (t : Region), t.nested → t.freePts ⊆ t.rect.pts
  | .leaf a => by
      intro _
      simp [Region.freePts, Region.rect]
  | .node a cs => by
      intro hn
      simp only [Region.freePts, Region.rect]
      exact freePtsL_sub cs a hn

theorem freePtsL_sub : ∀ (l : List Region) (a : Rect), nestedL a l → freePtsL l ⊆ a.pts
  | [], a => by
      intro _
      rw [freePtsL]
      exact Set.empty_subset _
  | c :: cs, a => by
      intro hn
      simp only [nestedL] at hn
      obtain ⟨hsub, hnc, hns⟩ := hn
      simp only [freePtsL]
      apply Set.union_subset
      · exact (freePts_sub c hnc).trans (pts_mono ⟨hsub.1, hsub.2.1, hsub.2.2.1, hsub.2.2.2⟩)
      · exact freePtsL_sub cs a hns
end

mutual
/-- `remove_rect` removes exactly the points of the removed rect from the
free set of a nested tree. -/
theorem freePts_remove : ∀ (t : Region) (r : Rect), t.nested →
    (t.remove_rect r).freePts = t.freePts \ r.pts
  | .leaf a, r => by
      intro _
      simp only [Region.remove_rect]
      cases h : a.split r with
      | none =>
          have hov := split_eq_none_iff.mp h
          simp only [Region.freePts]
          ext p
          simp only [Set.mem_diff]
          exact ⟨fun hp => ⟨hp, not_overlaps_disjoint hov p hp⟩, fun hp => hp.1⟩
      | some l =>
          obtain ⟨hov, rfl⟩ := split_eq_some_iff.mp h
          simp only [Region.freePts, freePtsL_map_leaf]
          exact stripList_pts hov
  | .node a cs, r => by
      intro hn
      simp only [Region.remove_rect]
      split
      · simp only [Region.freePts, freePtsL_filter_not_empty]
        exact freePtsL_remove cs r a hn
      · rename_i hna
        simp only [Region.freePts]
        have hsub := freePtsL_sub cs a hn
        have hov : a.overlaps r = false := by
          cases hc : a.overlaps r with
          | false => rfl
          | true => exact absurd hc hna
        ext p
        simp only [Set.mem_diff]
        refine ⟨fun hp => ⟨hp, not_overlaps_disjoint hov p (hsub hp)⟩, fun hp => hp.1⟩

theorem freePtsL_remove : ∀ (l : List Region) (r : Rect) (a : Rect), nestedL a l →
    freePtsL (removeRectL l r) = freePtsL l \ r.pts
  | [], r, a => by
      intro _
      simp [removeRectL, freePtsL]
  | c :: cs, r, a => by
      intro hn
      simp only [nestedL] at hn
      obtain ⟨hsub, hnc, hns⟩ := hn
      simp only [removeRectL, freePtsL, freePts_remove c r hnc, freePtsL_remove cs r a hns]
      exact (Set.union_diff_distrib).symm
end

/-- Removing the degenerate origin rect from any region whose rect starts at
a nonnegative x leaves the tree unchanged (the overlap test fails). -/
theorem remove_rect_origin (t : Region) (h : 0 ≤ t.rect.x1) :
    t.remove_rect (Rect.mk 0 0 0 0) = t := by
  cases t with
  | leaf a =>
      simp only [Region.rect] at h
      have hov : a.overlaps (Rect.mk 0 0 0 0) = false := by
        simp only [overlaps_eq_false_iff]
        omega
      simp [Region.remove_rect, Rect.split, hov]
  | node a cs =>
      simp only [Region.rect] at h
      have hov : a.overlaps (Rect.mk 0 0 0 0) = false := by
        simp only [overlaps_eq_false_iff]
        omega
      simp [Region.remove_rect, hov]

/-- Bounds are preserved by leaves of a removal. -/
theorem leaf_bounds_remove {reg : Region} {rect : Rect} {W H : Int} (hn : reg.nested)
    (hb : ∀ L ∈ reg.leafRects, InBounds L W H) :
    ∀ L' ∈ (reg.remove_rect rect).leafRects, InBounds L' W H := by
  intro L' hL'
  obtain ⟨_, L, hL, hcase⟩ := leafRects_remove reg rect hn L' hL'
  cases hcase with
  | inl h => exact h ▸ hb L hL
  | inr h => exact strip_inBounds h.1 h.2 (hb L hL)

/-- Every leaf of a removal is inside some original leaf. -/
theorem leaf_sub_remove {reg : Region} {rect : Rect} (hn : reg.nested) :
    ∀ L' ∈ (reg.remove_rect rect).leafRects, ∃ L ∈ reg.leafRects, SubR L' L := by
  intro L' hL'
  obtain ⟨_, L, hL, hcase⟩ := leafRects_remove reg rect hn L' hL'
  cases hcase with
  | inl h => exact ⟨L, hL, h ▸ SubR_refl L'⟩
  | inr h => exact ⟨L, hL, strip_subR h.1 h.2⟩

/-- No leaf of a removal overlaps the removed rect. -/
theorem leaf_not_overlaps_remove {reg : Region} {rect : Rect} (hn : reg.nested) :
    ∀ L' ∈ (reg.remove_rect rect).leafRects, L'.overlaps rect = false := by
  intro L' hL'
  exact (leafRects_remove reg rect hn L' hL').1

theorem origin_not_overlaps {r : Rect} (h : 0 ≤ r.x1) :
    (Rect.mk 0 0 0 0).overlaps r = false := by
  simp only [overlaps_eq_false_iff]
  omega

theorem not_overlaps_origin {r : Rect} (h : 0 ≤ r.x1) :
    r.overlaps (Rect.mk 0 0 0 0) = false := by
  simp only [overlaps_eq_false_iff]
  omega

theorem actual_nonneg {e : ImageEntry} (h : 0 ≤ e.w ∧ 0 ≤ e.h) :
    0 ≤ e.actual.1 ∧ 0 ≤ e.actual.2 := by
  simp only [ImageEntry.actual]
  exact ⟨le_max_of_le_left h.1, le_min h.1 h.2⟩

/-- Main invariant of a placement pass: on a nested region whose leaves lie
in the canvas, and entries with nonnegative dimensions, every assigned rect
lies in the canvas, every assigned rect is the origin rect or contained in a
leaf of the starting region, and the assigned rects are pairwise
non-overlapping. -/
theorem placeAll_invariant : ∀ (es : List ImageEntry) (reg : Region) (W H : Int)
    (prs : List (ImageEntry × Rect)),
    0 ≤ W → 0 ≤ H → reg.nested →
    (∀ L ∈ reg.leafRects, InBounds L W H) →
    (∀ e ∈ es, 0 ≤ e.w ∧ 0 ≤ e.h) →
    placeAll reg es = some prs →
    (∀ pr ∈ prs, InBounds pr.2 W H) ∧
    (∀ pr ∈ prs, pr.2 = Rect.mk 0 0 0 0 ∨ ∃ L ∈ reg.leafRects, SubR pr.2 L) ∧
    List.Pairwise (fun x y : ImageEntry × Rect => x.2.overlaps y.2 = false) prs := by
  intro es
  induction es with
  | nil =>
      intro reg W H prs _ _ _ _ _ hp
      simp only [placeAll, Option.some.injEq] at hp
      subst hp
      simp
  | cons e es ih =>
      intro reg W H prs hW hH hn hb hdims hp
      simp only [placeAll] at hp
      have hde := hdims e (by simp)
      have hdes : ∀ x ∈ es, 0 ≤ x.w ∧ 0 ≤ x.h := fun x hx => hdims x (by simp [hx])
      have hact := actual_nonneg hde
      -- determine the rect assigned to `e`
      by_cases hz : (e.actual.1 == 0 && e.actual.2 == 0) = true
      · rw [if_pos hz] at hp
        dsimp only at hp
        cases hrec : placeAll (reg.remove_rect (Rect.mk 0 0 0 0)) es with
        | none => rw [hrec] at hp; simp only [Option.map] at hp; cases hp
        | some prs2 =>
            rw [hrec] at hp
            simp only [Option.map, Option.some.injEq] at hp
            subst hp
            obtain ⟨ih1, ih2, ih3⟩ := ih (reg.remove_rect (Rect.mk 0 0 0 0)) W H prs2 hW hH
              (nested_remove reg _ hn) (leaf_bounds_remove hn hb) hdes hrec
            refine ⟨?_, ?_, ?_⟩
            · intro pr hpr
              rcases List.mem_cons.mp hpr with rfl | hpr2
              · exact ⟨le_refl 0, le_refl 0, hW, le_refl 0, le_refl 0, hH⟩
              · exact ih1 pr hpr2
            · intro pr hpr
              rcases List.mem_cons.mp hpr with rfl | hpr2
              · exact Or.inl rfl
              · rcases ih2 pr hpr2 with h | ⟨L', hL', hs⟩
                · exact Or.inl h
                · obtain ⟨L, hL, hs2⟩ := leaf_sub_remove hn L' hL'
                  exact Or.inr ⟨L, hL, SubR_trans hs hs2⟩
            · rw [List.pairwise_cons]
              refine ⟨?_, ih3⟩
              intro y hy
              exact origin_not_overlaps (ih1 y hy).1
      · rw [if_neg hz] at hp
        -- the natural and the rotated orientation
        have hmain : ∀ (r : Rect) (u v : Int), 0 ≤ u → 0 ≤ v →
            reg.find_fit u v = some r →
            (placeAll (reg.remove_rect r) es).map (fun prs => (e, r) :: prs) = some prs →
            (∀ pr ∈ prs, InBounds pr.2 W H) ∧
            (∀ pr ∈ prs, pr.2 = Rect.mk 0 0 0 0 ∨ ∃ L ∈ reg.leafRects, SubR pr.2 L) ∧
            List.Pairwise (fun x y : ImageEntry × Rect => x.2.overlaps y.2 = false) prs := by
          intro r u v hu hv hff hp
          obtain ⟨L0, hL0, hfits, hr⟩ := find_fit_spec reg u v r hff
          have hL0b := hb L0 hL0
          rw [fits_iff] at hfits
          have hrb : InBounds r W H := by
            subst hr
            dsimp only [InBounds]
            rcases hL0b with ⟨b1, b2, b3, b4, b5, b6⟩
            omega
          have hrsub : SubR r L0 := by
            subst hr
            dsimp only [SubR]
            omega
          cases hrec : placeAll (reg.remove_rect r) es with
          | none => rw [hrec] at hp; simp only [Option.map] at hp; cases hp
          | some prs2 =>
              rw [hrec] at hp
              simp only [Option.map, Option.some.injEq] at hp
              subst hp
              obtain ⟨ih1, ih2, ih3⟩ := ih (reg.remove_rect r) W H prs2 hW hH
                (nested_remove reg _ hn) (leaf_bounds_remove hn hb) hdes hrec
              refine ⟨?_, ?_, ?_⟩
              · intro pr hpr
                rcases List.mem_cons.mp hpr with rfl | hpr2
                · exact hrb
                · exact ih1 pr hpr2
              · intro pr hpr
                rcases List.mem_cons.mp hpr with rfl | hpr2
                · exact Or.inr ⟨L0, hL0, hrsub⟩
                · rcases ih2 pr hpr2 with h | ⟨L', hL', hs⟩
                  · exact Or.inl h
                  · obtain ⟨L, hL, hs2⟩ := leaf_sub_remove hn L' hL'
                    exact Or.inr ⟨L, hL, SubR_trans hs hs2⟩
              · rw [List.pairwise_cons]
                refine ⟨?_, ih3⟩
                intro y hy
                rcases ih2 y hy with hor | ⟨L', hL', hs⟩
                · rw [hor]
                  exact not_overlaps_origin hrb.1
                · cases hc : r.overlaps y.2 with
                  | false => rfl
                  | true =>
                      have h1 : r.overlaps L' = true := overlaps_mono_right hs hc
                      rw [overlaps_comm] at h1
                      have h2 := leaf_not_overlaps_remove hn L' hL'
                      rw [h1] at h2
                      cases h2
        cases hf1 : reg.find_fit e.actual.1 e.actual.2 with
        | some r =>
            rw [hf1] at hp
            dsimp only at hp
            exact hmain r e.actual.1 e.actual.2 hact.1 hact.2 hf1 hp
        | none =>
            rw [hf1] at hp
            cases hf2 : reg.find_fit e.actual.2 e.actual.1 with
            | none => rw [hf2] at hp; cases hp
            | some r =>
                rw [hf2] at hp
                dsimp only at hp
                exact hmain r e.actual.2 e.actual.1 hact.2 hact.1 hf2 hp

/-- A successful retry loop returns a canvas on which a full placement pass
succeeded, with nonnegative dimensions whenever the starting ones are. -/
theorem attempts_spec : ∀ (fuel : Nat) (images : List ImageEntry) (W H W2 H2 : Int)
    (prs : List (ImageEntry × Rect)), 0 ≤ W → 0 ≤ H →
    attempts images fuel W H = .ok (W2, H2, prs) →
    0 ≤ W2 ∧ 0 ≤ H2 ∧ placeAll (Region.leaf (Rect.mk 0 0 W2 H2)) images = some prs := by
  intro fuel
  induction fuel with
  | zero =>
      intro images W H W2 H2 prs hW hH h
      simp only [attempts] at h
      cases hpl : placeAll (Region.leaf (Rect.mk 0 0 W H)) images with
      | some prs0 =>
          rw [hpl] at h
          cases h
          exact ⟨hW, hH, hpl⟩
      | none => rw [hpl] at h; cases h
  | succ f ihf =>
      intro images W H W2 H2 prs hW hH h
      simp only [attempts] at h
      cases hpl : placeAll (Region.leaf (Rect.mk 0 0 W H)) images with
      | some prs0 =>
          rw [hpl] at h
          cases h
          exact ⟨hW, hH, hpl⟩
      | none =>
          rw [hpl] at h
          dsimp only at h
          split at h
          · exact ihf images (W * 2) H W2 H2 prs (by omega) hH h
          · exact ihf images W (H * 2) W2 H2 prs hW (by omega) h

/-- Destructuring of a successful `mainPack` run into its phases. -/
theorem mainPack_ok_elim {fuel : Nat} {files : List ImageEntry} {W H : Int}
    {prs : List (ImageEntry × Rect)}
    (h : mainPack fuel files = .ok (W, H, prs)) :
    ∃ maxW W0 W1 H1, maxLong (sortEntries files) = some maxW ∧
      growW maxW fuel 1 = some W0 ∧
      growArea (totalArea (sortEntries files)) fuel W0 1 = some (W1, H1) ∧
      attempts (sortEntries files) fuel W1 H1 = .ok (W, H, prs) := by
  simp only [mainPack] at h
  cases h1 : maxLong (sortEntries files) with
  | none => rw [h1] at h; cases h
  | some maxW =>
      rw [h1] at h
      dsimp only at h
      cases h2 : growW maxW fuel 1 with
      | none => rw [h2] at h; cases h
      | some W0 =>
          rw [h2] at h
          dsimp only at h
          cases h3 : growArea (totalArea (sortEntries files)) fuel W0 1 with
          | none => rw [h3] at h; cases h
          | some p =>
              rw [h3] at h
              cases p with
              | mk W1 H1 =>
                  refine ⟨maxW, W0, W1, H1, ?_, ?_, ?_, h⟩ <;>
                    first
                    | rfl
                    | exact h1
                    | exact h2
                    | exact h3

theorem insertDesc_perm (x : ImageEntry) (l : List ImageEntry) :
    List.Perm (insertDesc x l) (x :: l) := by
  induction l with
  | nil => exact List.Perm.refl _
  | cons y ys ih =>
      simp only [insertDesc]
      split
      · exact List.Perm.trans (List.Perm.cons y ih) (List.Perm.swap x y ys)
      · exact List.Perm.refl _

theorem sortEntries_perm (l : List ImageEntry) : List.Perm (sortEntries l) l := by
  induction l with
  | nil => exact List.Perm.refl _
  | cons x xs ih =>
      simp only [sortEntries, List.foldr]
      exact List.Perm.trans (insertDesc_perm x _) (List.Perm.cons x ih)

theorem mem_sortEntries {e : ImageEntry} {l : List ImageEntry} :
    e ∈ sortEntries l ↔ e ∈ l :=
  (sortEntries_perm l).mem_iff

theorem totalArea_sortEntries (l : List ImageEntry) :
    totalArea (sortEntries l) = totalArea l := by
  simp only [totalArea]
  exact ((sortEntries_perm l).map ImageEntry.area).sum_eq

/-- Every assigned rect is the degenerate origin rect (for a zero-by-zero
actual size) or has exactly the requested size, in natural or in rotated
orientation. -/
theorem placeAll_sizes : ∀ (es : List ImageEntry) (reg : Region)
    (prs : List (ImageEntry × Rect)),
    placeAll reg es = some prs →
    ∀ pr ∈ prs,
      (pr.1.actual.1 = 0 ∧ pr.1.actual.2 = 0 ∧ pr.2 = Rect.mk 0 0 0 0) ∨
      pr.2.size = (pr.1.actual.1, pr.1.actual.2) ∨
      pr.2.size = (pr.1.actual.2, pr.1.actual.1) := by
  intro es
  induction es with
  | nil =>
      intro reg prs hp
      simp only [placeAll, Option.some.injEq] at hp
      subst hp
      simp
  | cons e es ih =>
      intro reg prs hp
      simp only [placeAll] at hp
      by_cases hz : (e.actual.1 == 0 && e.actual.2 == 0) = true
      · rw [if_pos hz] at hp
        dsimp only at hp
        simp only [Bool.and_eq_true, beq_iff_eq] at hz
        cases hrec : placeAll (reg.remove_rect (Rect.mk 0 0 0 0)) es with
        | none => rw [hrec] at hp; simp only [Option.map] at hp; cases hp
        | some prs2 =>
            rw [hrec] at hp
            simp only [Option.map, Option.some.injEq] at hp
            subst hp
            intro pr hpr
            rcases List.mem_cons.mp hpr with rfl | hpr2
            · exact Or.inl ⟨hz.1, hz.2, rfl⟩
            · exact ih _ prs2 hrec pr hpr2
      · rw [if_neg hz] at hp
        have hmain : ∀ (r : Rect) (u v : Int),
            reg.find_fit u v = some r →
            (placeAll (reg.remove_rect r) es).map (fun prs => (e, r) :: prs) = some prs →
            r.size = (u, v) ∧
            ∀ pr ∈ prs, pr = (e, r) ∨ pr ∈ prs.tail := by
          intro r u v hff hp
          obtain ⟨L0, _, _, hr⟩ := find_fit_spec reg u v r hff
          refine ⟨by subst hr; simp only [Rect.size]; simp only [Prod.mk.injEq]; constructor <;> ring, ?_⟩
          cases hrec : placeAll (reg.remove_rect r) es with
          | none => rw [hrec] at hp; simp only [Option.map] at hp; cases hp
          | some prs2 =>
              rw [hrec] at hp
              simp only [Option.map, Option.some.injEq] at hp
              subst hp
              intro pr hpr
              rcases List.mem_cons.mp hpr with rfl | hpr2
              · exact Or.inl rfl
              · exact Or.inr hpr2
        cases hf1 : reg.find_fit e.actual.1 e.actual.2 with
        | some r =>
            rw [hf1] at hp
            dsimp only at hp
            cases hrec : placeAll (reg.remove_rect r) es with
            | none => rw [hrec] at hp; simp only [Option.map] at hp; cases hp
            | some prs2 =>
                rw [hrec] at hp
                simp only [Option.map, Option.some.injEq] at hp
                subst hp
                intro pr hpr
                rcases List.mem_cons.mp hpr with rfl | hpr2
                · obtain ⟨L0, _, _, hr⟩ := find_fit_spec reg _ _ r hf1
                  refine Or.inr (Or.inl ?_)
                  subst hr
                  simp only [Rect.size, Prod.mk.injEq]
                  constructor <;> ring
                · exact ih _ prs2 hrec pr hpr2
        | none =>
            rw [hf1] at hp
            cases hf2 : reg.find_fit e.actual.2 e.actual.1 with
            | none => rw [hf2] at hp; cases hp
            | some r =>
                rw [hf2] at hp
                dsimp only at hp
                cases hrec : placeAll (reg.remove_rect r) es with
                | none => rw [hrec] at hp; simp only [Option.map] at hp; cases hp
                | some prs2 =>
                    rw [hrec] at hp
                    simp only [Option.map, Option.some.injEq] at hp
                    subst hp
                    intro pr hpr
                    rcases List.mem_cons.mp hpr with rfl | hpr2
                    · obtain ⟨L0, _, _, hr⟩ := find_fit_spec reg _ _ r hf2
                      refine Or.inr (Or.inr ?_)
                      subst hr
                      simp only [Rect.size, Prod.mk.injEq]
                      constructor <;> ring
                    · exact ih _ prs2 hrec pr hpr2

/-- The first sizing loop keeps the width a power of two. -/
theorem growW_pow2 : ∀ (fuel : Nat) (maxW W W' : Int) (a : Nat),
    W = 2 ^ a → growW maxW fuel W = some W' → ∃ b : Nat, W' = (2:Int) ^ b := by
  intro fuel
  induction fuel with
  | zero =>
      intro maxW W W' a hWa h
      simp only [growW] at h
      split at h
      · cases h
      · cases h
        exact ⟨a, hWa⟩
  | succ f ihf =>
      intro maxW W W' a hWa h
      simp only [growW] at h
      split at h
      · exact ihf maxW (W * 2) W' (a + 1) (by rw [hWa, pow_succ]) h
      · cases h
        exact ⟨a, hWa⟩

/-- The second sizing loop preserves powers of two with height at most
width, and exits only when the canvas area reaches the requested area. -/
theorem growArea_spec : ∀ (fuel : Nat) (A W H W' H' : Int) (a b : Nat),
    W = 2 ^ a → H = 2 ^ b → b ≤ a →
    growArea A fuel W H = some (W', H') →
    ∃ a' b' : Nat, W' = 2 ^ a' ∧ H' = 2 ^ b' ∧ b' ≤ a' ∧ A ≤ W' * H' := by
  intro fuel
  induction fuel with
  | zero =>
      intro A W H W' H' a b hWa hHb hba h
      simp only [growArea] at h
      split at h
      · cases h
      · rename_i hc
        cases h
        exact ⟨a, b, hWa, hHb, hba, by omega⟩
  | succ f ihf =>
      intro A W H W' H' a b hWa hHb hba h
      simp only [growArea] at h
      split at h
      · split at h
        · rename_i hc hWH
          have hab : a = b := by
            have hle : a ≤ b := by
              rw [hWa, hHb] at hWH
              exact (pow_le_pow_iff_right₀ (by norm_num : (1:Int) < 2)).mp hWH
            omega
          exact ihf A (W * 2) H W' H' (a + 1) b (by rw [hWa, pow_succ]) hHb (by omega) h
        · rename_i hc hWH
          have hlt : b < a := by
            have : H < W := by omega
            rw [hWa, hHb] at this
            exact (pow_lt_pow_iff_right₀ (by norm_num : (1:Int) < 2)).mp this
          exact ihf A W (H * 2) W' H' a (b + 1) hWa (by rw [hHb, pow_succ]) (by omega) h
      · rename_i hc
        cases h
        exact ⟨a, b, hWa, hHb, hba, by omega⟩

/-- The retry loop preserves powers of two with height at most width, and
never shrinks the canvas below the requested total area. -/
theorem attempts_grow : ∀ (fuel : Nat) (images : List ImageEntry)
    (W H W2 H2 : Int) (prs : List (ImageEntry × Rect)) (a b : Nat),
    W = 2 ^ a → H = 2 ^ b → b ≤ a → totalArea images ≤ W * H →
    attempts images fuel W H = .ok (W2, H2, prs) →
    ∃ a2 b2 : Nat, W2 = 2 ^ a2 ∧ H2 = 2 ^ b2 ∧ b2 ≤ a2 ∧ totalArea images ≤ W2 * H2 := by
  intro fuel
  induction fuel with
  | zero =>
      intro images W H W2 H2 prs a b hWa hHb hba harea h
      simp only [attempts] at h
      cases hpl : placeAll (Region.leaf (Rect.mk 0 0 W H)) images with
      | some prs0 =>
          rw [hpl] at h
          cases h
          exact ⟨a, b, hWa, hHb, hba, harea⟩
      | none => rw [hpl] at h; cases h
  | succ f ihf =>
      intro images W H W2 H2 prs a b hWa hHb hba harea h
      simp only [attempts] at h
      cases hpl : placeAll (Region.leaf (Rect.mk 0 0 W H)) images with
      | some prs0 =>
          rw [hpl] at h
          cases h
          exact ⟨a, b, hWa, hHb, hba, harea⟩
      | none =>
          rw [hpl] at h
          dsimp only at h
          have hWpos : (0:Int) < W := by rw [hWa]; positivity
          have hHpos : (0:Int) < H := by rw [hHb]; positivity
          split at h
          · rename_i hWH
            have hab : a = b := by
              have hle : a ≤ b := by
                rw [hWa, hHb] at hWH
                exact (pow_le_pow_iff_right₀ (by norm_num : (1:Int) < 2)).mp hWH
              omega
            refine ihf images (W * 2) H W2 H2 prs (a + 1) b (by rw [hWa, pow_succ]) hHb
              (by omega) (by nlinarith) h
          · rename_i hWH
            have hlt : b < a := by
              have : H < W := by omega
              rw [hWa, hHb] at this
              exact (pow_lt_pow_iff_right₀ (by norm_num : (1:Int) < 2)).mp this
            refine ihf images W (H * 2) W2 H2 prs a (b + 1) hWa (by rw [hHb, pow_succ])
              (by omega) (by nlinarith) h

theorem freeInvL_map_leaf {l : List Rect} {S : Set (Int × Int)}
    (h : ∀ s ∈ l, s.pts ∩ S = ∅) : freeInvL (l.map Region.leaf) S := by
  induction l with
  | nil => trivial
  | cons s ss ih =>
      exact ⟨h s (by simp), ih fun x hx => h x (by simp [hx])⟩

theorem freeInvL_filter {l : List Region} {S : Set (Int × Int)} (p : Region → Bool)
    (h : freeInvL l S) : freeInvL (l.filter p) S := by
  induction l with
  | nil => trivial
  | cons c cs ih =>
      obtain ⟨hc, hcs⟩ := h
      simp only [List.filter]
      cases p c
      · exact ih hcs
      · exact ⟨hc, ih hcs⟩

mutual
/-- A region that satisfies the node invariant for removed set `S` and whose
rect avoids `X` also satisfies it for `S ∪ X`. -/
theorem freeInv_union_disjoint : ∀ (t : Region) (S X : Set (Int × Int)), t.nested →
    t.freeInv S → t.rect.pts ∩ X = ∅ → t.freeInv (S ∪ X)
  | .leaf r, S, X => by
      intro _ hInv hdis
      simp only [Region.freeInv] at hInv ⊢
      simp only [Region.rect] at hdis
      rw [Set.inter_union_distrib_left, hInv, hdis, Set.union_empty]
  | .node r cs, S, X => by
      intro hn hInv hdis
      simp only [Region.freeInv] at hInv ⊢
      simp only [Region.rect] at hdis
      obtain ⟨hfst, hsnd⟩ := hInv
      constructor
      · rw [hfst]
        ext p
        simp only [Set.mem_diff, Set.mem_union]
        constructor
        · rintro ⟨hp, hns⟩
          refine ⟨hp, ?_⟩
          rintro (hs | hx)
          · exact hns hs
          · exact absurd (Set.mem_inter hp hx) (by rw [hdis]; exact Set.not_mem_empty p)
        · rintro ⟨hp, hnsx⟩
          exact ⟨hp, fun hs => hnsx (Or.inl hs)⟩
      · exact freeInvL_union_disjoint cs S X r hn hsnd hdis

theorem freeInvL_union_disjoint : ∀ (l : List Region) (S X : Set (Int × Int)) (a : Rect),
    nestedL a l → freeInvL l S → a.pts ∩ X = ∅ → freeInvL l (S ∪ X)
  | [], S, X, a => by intros; trivial
  | c :: cs, S, X, a => by
      intro hn hInv hdis
      obtain ⟨hsub, hnc, hns⟩ := hn
      obtain ⟨hc, hcs⟩ := hInv
      have hdisc : c.rect.pts ∩ X = ∅ := by
        have hmono := pts_mono (a := c.rect) (b := a) ⟨hsub.1, hsub.2.1, hsub.2.2.1, hsub.2.2.2⟩
        ext p
        simp only [Set.mem_inter_iff, Set.mem_empty_iff_false, iff_false, not_and]
        intro hp hx
        exact absurd (Set.mem_inter (hmono hp) hx) (by rw [hdis]; exact Set.not_mem_empty p)
      exact ⟨freeInv_union_disjoint c S X hnc hc hdisc, freeInvL_union_disjoint cs S X a hns hcs hdis⟩
end

mutual
/-- `remove_rect` preserves the node invariant, enlarging the removed set by
the points of the removed rect. -/
theorem freeInv_remove : ∀ (t : Region) (S : Set (Int × Int)) (r : Rect), t.nested →
    t.freeInv S → (t.remove_rect r).freeInv (S ∪ r.pts)
  | .leaf a, S, r => by
      intro _ hInv
      simp only [Region.freeInv] at hInv
      simp only [Region.remove_rect]
      cases h : a.split r with
      | none =>
          have hov := split_eq_none_iff.mp h
          simp only [Region.freeInv]
          rw [Set.inter_union_distrib_left, hInv, Set.empty_union]
          ext p
          simp only [Set.mem_inter_iff, Set.mem_empty_iff_false, iff_false, not_and]
          exact fun hp => not_overlaps_disjoint hov p hp
      | some l =>
          obtain ⟨hov, rfl⟩ := split_eq_some_iff.mp h
          simp only [Region.freeInv]
          constructor
          · rw [freePtsL_map_leaf, stripList_pts hov]
            ext p
            simp only [Set.mem_diff, Set.mem_union]
            constructor
            · rintro ⟨hp, hnr⟩
              refine ⟨hp, ?_⟩
              rintro (hs | hr)
              · exact absurd (Set.mem_inter hp hs) (by rw [hInv]; exact Set.not_mem_empty p)
              · exact hnr hr
            · rintro ⟨hp, hnsr⟩
              exact ⟨hp, fun hr => hnsr (Or.inr hr)⟩
          · refine freeInvL_map_leaf ?_
            intro s hs
            have hsubs := pts_mono (strip_subR hov hs)
            have hnov := strip_not_overlaps (b := r) hs
            ext p
            simp only [Set.mem_inter_iff, Set.mem_empty_iff_false, iff_false, not_and]
            rintro hp (hS | hr)
            · exact absurd (Set.mem_inter (hsubs hp) hS) (by rw [hInv]; exact Set.not_mem_empty p)
            · exact not_overlaps_disjoint hnov p hp hr
  | .node a cs, S, r => by
      intro hn hInv
      simp only [Region.freeInv] at hInv
      obtain ⟨hfst, hsnd⟩ := hInv
      simp only [Region.remove_rect]
      split
      · simp only [Region.freeInv]
        constructor
        · rw [freePtsL_filter_not_empty, freePtsL_remove cs r a hn, hfst, Set.diff_diff]
        · exact freeInvL_filter _ (freeInvL_remove cs S r a hn hsnd)
      · rename_i hna
        have hov : a.overlaps r = false := by
          cases hc : a.overlaps r with
          | false => rfl
          | true => exact absurd hc hna
        have hdis : a.pts ∩ r.pts = ∅ := by
          ext p
          simp only [Set.mem_inter_iff, Set.mem_empty_iff_false, iff_false, not_and]
          exact fun hp => not_overlaps_disjoint hov p hp
        exact freeInv_union_disjoint (Region.node a cs) S r.pts hn ⟨hfst, hsnd⟩ hdis

theorem freeInvL_remove : ∀ (l : List Region) (S : Set (Int × Int)) (r : Rect) (a : Rect),
    nestedL a l → freeInvL l S → freeInvL (removeRectL l r) (S ∪ r.pts)
  | [], S, r, a => by intros; trivial
  | c :: cs, S, r, a => by
      intro hn hInv
      obtain ⟨hsub, hnc, hns⟩ := hn
      obtain ⟨hc, hcs⟩ := hInv
      exact ⟨freeInv_remove c S r hnc hc, freeInvL_remove cs S r a hns hcs⟩
end

/-- Folding removals over a region preserves the node invariant with the
accumulated removed set. -/
theorem freeInv_foldl : ∀ (rs : List Rect) (t : Region) (S : Set (Int × Int)),
    t.nested → t.freeInv S →
    (List.foldl Region.remove_rect t rs).freeInv (S ∪ listPts rs) := by
  intro rs
  induction rs with
  | nil =>
      intro t S hn hInv
      simpa [listPts_nil] using hInv
  | cons r rs ih =>
      intro t S hn hInv
      have step := ih (t.remove_rect r) (S ∪ r.pts) (nested_remove t r hn)
        (freeInv_remove t S r hn hInv)
      simp only [List.foldl] at step ⊢
      rw [listPts_cons]
      rw [Set.union_assoc] at step
      exact step

/-- A successful `mainPack` run yields a nonnegative canvas on which a full
placement pass over the sorted entries succeeded. -/
theorem mainPack_placeAll {fuel : Nat} {files : List ImageEntry} {W H : Int}
    {prs : List (ImageEntry × Rect)}
    (h : mainPack fuel files = .ok (W, H, prs)) :
    0 ≤ W ∧ 0 ≤ H ∧
    placeAll (Region.leaf (Rect.mk 0 0 W H)) (sortEntries files) = some prs := by
  obtain ⟨maxW, W0, W1, H1, h1, h2, h3, h4⟩ := mainPack_ok_elim h
  obtain ⟨a0, ha0⟩ := growW_pow2 fuel maxW 1 W0 0 (by norm_num) h2
  obtain ⟨a1, b1, hW1, hH1, hba, harea⟩ :=
    growArea_spec fuel _ W0 1 W1 H1 a0 0 ha0 (by norm_num) (Nat.zero_le _) h3
  exact attempts_spec fuel _ W1 H1 W H prs (by rw [hW1]; positivity)
    (by rw [hH1]; positivity) h4

/-- C1: for every successful packing produced by the packer, the assigned
rects of all entries are pairwise non-overlapping (`Rect.overlaps` is false
for every pair), and every assigned rect lies within the final canvas
bounds `[0,W) × [0,H)`. -/
theorem spec_C1 (fuel : Nat) (files : List ImageEntry) (W H : Int)
    (prs : List (ImageEntry × Rect))
    (hdims : ∀ e ∈ files, 0 ≤ e.w ∧ 0 ≤ e.h)
    (hok : mainPack fuel files = .ok (W, H, prs)) :
    (∀ pr ∈ prs, 0 ≤ pr.2.x1 ∧ pr.2.x1 ≤ pr.2.x2 ∧ pr.2.x2 ≤ W ∧
                 0 ≤ pr.2.y1 ∧ pr.2.y1 ≤ pr.2.y2 ∧ pr.2.y2 ≤ H) ∧
    List.Pairwise (fun x y : ImageEntry × Rect => x.2.overlaps y.2 = false) prs := by
  obtain ⟨hW, hH, hpl⟩ := mainPack_placeAll hok
  have hnested : (Region.leaf (Rect.mk 0 0 W H)).nested := trivial
  have hleaf : ∀ L ∈ (Region.leaf (Rect.mk 0 0 W H)).leafRects, InBounds L W H := by
    intro L hL
    simp only [Region.leafRects, List.mem_singleton] at hL
    subst hL
    dsimp only [InBounds]
    omega
  have hdims2 : ∀ e ∈ sortEntries files, 0 ≤ e.w ∧ 0 ≤ e.h :=
    fun e he => hdims e (mem_sortEntries.mp he)
  obtain ⟨i1, i2, i3⟩ :=
    placeAll_invariant (sortEntries files) _ W H prs hW hH hnested hleaf hdims2 hpl
  exact ⟨fun pr hpr => i1 pr hpr, i3⟩

/-- Witness for C1 on the single 3-by-3 image scenario. -/
theorem spec_C1_witness :
    (∀ e ∈ [ImageEntry.mk 3 3], 0 ≤ e.w ∧ 0 ≤ e.h) ∧
    ((∀ pr ∈ [(ImageEntry.mk 3 3, Rect.mk 0 0 3 3)],
        0 ≤ pr.2.x1 ∧ pr.2.x1 ≤ pr.2.x2 ∧ pr.2.x2 ≤ 4 ∧
        0 ≤ pr.2.y1 ∧ pr.2.y1 ≤ pr.2.y2 ∧ pr.2.y2 ≤ 4) ∧
     List.Pairwise (fun x y : ImageEntry × Rect => x.2.overlaps y.2 = false)
       [(ImageEntry.mk 3 3, Rect.mk 0 0 3 3)]) :=
  ⟨by decide,
   spec_C1 4 [ImageEntry.mk 3 3] 4 4 [(ImageEntry.mk 3 3, Rect.mk 0 0 3 3)]
     (by decide) (by decide)⟩

/-- C5: the final canvas dimensions are positive powers of two whose
product is at least the total requested area. -/
theorem spec_C5 (fuel : Nat) (files : List ImageEntry) (W H : Int)
    (prs : List (ImageEntry × Rect))
    (hok : mainPack fuel files = .ok (W, H, prs)) :
    (∃ a : Nat, W = 2 ^ a) ∧ (∃ b : Nat, H = 2 ^ b) ∧ 0 < W ∧ 0 < H ∧
    totalArea files ≤ W * H := by
  obtain ⟨maxW, W0, W1, H1, h1, h2, h3, h4⟩ := mainPack_ok_elim hok
  obtain ⟨a0, ha0⟩ := growW_pow2 fuel maxW 1 W0 0 (by norm_num) h2
  obtain ⟨a1, b1, hW1, hH1, hba, harea⟩ :=
    growArea_spec fuel _ W0 1 W1 H1 a0 0 ha0 (by norm_num) (Nat.zero_le _) h3
  obtain ⟨a2, b2, hW2, hH2, hba2, harea2⟩ :=
    attempts_grow fuel _ W1 H1 W H prs a1 b1 hW1 hH1 hba harea h4
  rw [totalArea_sortEntries] at harea2
  exact ⟨⟨a2, hW2⟩, ⟨b2, hH2⟩, by rw [hW2]; positivity, by rw [hH2]; positivity, harea2⟩

/-- Witness for C5 on the single 3-by-3 image scenario. -/
theorem spec_C5_witness :
    (∃ a : Nat, (4:Int) = 2 ^ a) ∧ (∃ b : Nat, (4:Int) = 2 ^ b) ∧
    (0:Int) < 4 ∧ (0:Int) < 4 ∧
    totalArea [ImageEntry.mk 3 3] ≤ 4 * 4 :=
  spec_C5 4 [ImageEntry.mk 3 3] 4 4 [(ImageEntry.mk 3 3, Rect.mk 0 0 3 3)] (by decide)

/-- C9: through the area-sizing loop, the retry loop and hence in the final
result, the canvas height never exceeds the canvas width (both dimensions
stay powers of two, and only the dimension not larger than the other is
doubled, width first on ties). -/
theorem spec_C9 :
    (∀ (fuel : Nat) (A W H Wf Hf : Int) (a b : Nat), W = 2 ^ a → H = 2 ^ b →
      b ≤ a → growArea A fuel W H = some (Wf, Hf) → Hf ≤ Wf) ∧
    (∀ (fuel : Nat) (images : List ImageEntry) (W H Wf Hf : Int)
      (prs : List (ImageEntry × Rect)) (a b : Nat),
      W = 2 ^ a → H = 2 ^ b → b ≤ a → totalArea images ≤ W * H →
      attempts images fuel W H = .ok (Wf, Hf, prs) → Hf ≤ Wf) ∧
    (∀ (fuel : Nat) (files : List ImageEntry) (W H : Int)
      (prs : List (ImageEntry × Rect)),
      mainPack fuel files = .ok (W, H, prs) → H ≤ W) := by
  refine ⟨?_, ?_, ?_⟩
  · intro fuel A W H Wf Hf a b hWa hHb hba h
    obtain ⟨a1, b1, hW1, hH1, hba1, _⟩ := growArea_spec fuel A W H Wf Hf a b hWa hHb hba h
    rw [hW1, hH1]
    exact (pow_le_pow_iff_right₀ (by norm_num : (1:Int) < 2)).mpr hba1
  · intro fuel images W H Wf Hf prs a b hWa hHb hba harea h
    obtain ⟨a2, b2, hW2, hH2, hba2, _⟩ :=
      attempts_grow fuel images W H Wf Hf prs a b hWa hHb hba harea h
    rw [hW2, hH2]
    exact (pow_le_pow_iff_right₀ (by norm_num : (1:Int) < 2)).mpr hba2
  · intro fuel files W H prs hok
    obtain ⟨maxW, W0, W1, H1, h1, h2, h3, h4⟩ := mainPack_ok_elim hok
    obtain ⟨a0, ha0⟩ := growW_pow2 fuel maxW 1 W0 0 (by norm_num) h2
    obtain ⟨a1, b1, hW1, hH1, hba, harea⟩ :=
      growArea_spec fuel _ W0 1 W1 H1 a0 0 ha0 (by norm_num) (Nat.zero_le _) h3
    obtain ⟨a2, b2, hW2, hH2, hba2, _⟩ :=
      attempts_grow fuel _ W1 H1 W H prs a1 b1 hW1 hH1 hba harea h4
    rw [hW2, hH2]
    exact (pow_le_pow_iff_right₀ (by norm_num : (1:Int) < 2)).mpr hba2

/-- Witness for C9: a concrete sizing-loop run and a concrete full run. -/
theorem spec_C9_witness : ((1:Int) ≤ 2) ∧ ((4:Int) ≤ 4) :=
  ⟨spec_C9.1 4 0 2 1 2 1 1 0 (by norm_num) (by norm_num) (by omega) (by decide),
   spec_C9.2.2 4 [ImageEntry.mk 3 3] 4 4 [(ImageEntry.mk 3 3, Rect.mk 0 0 3 3)] (by decide)⟩

/-- C10: on an empty image list the packer fails at the `max()` over actual
sizes before any packing, and produces no canvas or placement. -/
theorem spec_C10 (fuel : Nat) :
    mainPack fuel ([] : List ImageEntry) = .error PackErr.noImages := rfl

/-- C6: every entry with nonzero area gets a rect sized exactly as its
actual size, in natural or rotated orientation, and the transposed flag is
true iff the assigned rect's size differs from the entry's requested
orientation. -/
theorem spec_C6 (fuel : Nat) (files : List ImageEntry) (W H : Int)
    (prs : List (ImageEntry × Rect))
    (hok : mainPack fuel files = .ok (W, H, prs)) :
    ∀ pr ∈ prs, pr.1.area ≠ 0 →
      (pr.2.size = (pr.1.actual.1, pr.1.actual.2) ∨
       pr.2.size = (pr.1.actual.2, pr.1.actual.1)) ∧
      (transposedFlag pr.1 pr.2 = true ↔ pr.2.size ≠ (pr.1.w, pr.1.h)) := by
  obtain ⟨hW, hH, hpl⟩ := mainPack_placeAll hok
  intro pr hpr harea
  have hsz := placeAll_sizes (sortEntries files) _ prs hpl pr hpr
  constructor
  · rcases hsz with ⟨hz1, hz2, _⟩ | h | h
    · exfalso
      apply harea
      have l1 := le_max_left pr.1.w pr.1.h
      have l2 := le_max_right pr.1.w pr.1.h
      have l3 := min_le_left pr.1.w pr.1.h
      have l4 := min_le_right pr.1.w pr.1.h
      simp only [ImageEntry.actual] at hz1 hz2
      rw [hz1] at l1 l2
      rw [hz2] at l3 l4
      have hw0 : pr.1.w = 0 := le_antisymm l1 l3
      have hh0 : pr.1.h = 0 := le_antisymm l2 l4
      simp [ImageEntry.area, hw0, hh0]
    · exact Or.inl h
    · exact Or.inr h
  · simp [transposedFlag, bne_iff_ne]

/-- Witness for C6 on a portrait 3-by-5 image: placed as a 5-by-3 rect and
flagged as transposed. -/
theorem spec_C6_witness :
    (ImageEntry.mk 3 5).area ≠ 0 ∧
    (((Rect.mk 0 0 5 3).size =
        ((ImageEntry.mk 3 5).actual.1, (ImageEntry.mk 3 5).actual.2) ∨
      (Rect.mk 0 0 5 3).size =
        ((ImageEntry.mk 3 5).actual.2, (ImageEntry.mk 3 5).actual.1)) ∧
     (transposedFlag (ImageEntry.mk 3 5) (Rect.mk 0 0 5 3) = true ↔
      (Rect.mk 0 0 5 3).size ≠ ((ImageEntry.mk 3 5).w, (ImageEntry.mk 3 5).h))) :=
  ⟨by decide,
   spec_C6 4 [ImageEntry.mk 3 5] 8 4 [(ImageEntry.mk 3 5, Rect.mk 0 0 5 3)] (by decide)
     (ImageEntry.mk 3 5, Rect.mk 0 0 5 3) (by decide) (by decide)⟩

/-- C3: removing a positive-area rect `r` contained in a leaf's rect `R`
replaces the leaf by children whose free points are exactly `R` minus `r`,
none of which overlaps `r`. -/
theorem spec_C3 (R r : Rect)
    (hsub : R.x1 ≤ r.x1 ∧ r.x2 ≤ R.x2 ∧ R.y1 ≤ r.y1 ∧ r.y2 ≤ R.y2)
    (hpos : r.x1 < r.x2 ∧ r.y1 < r.y2) :
    ∃ cs, (Region.leaf R).remove_rect r = Region.node R cs ∧
      freePtsL cs = R.pts \ r.pts ∧
      ∀ c ∈ cs, c.rect.overlaps r = false := by
  have hov : R.overlaps r = true := by
    rw [overlaps_iff]
    omega
  have hsplit : R.split r = some (R.stripList r) := by simp [Rect.split, hov]
  refine ⟨(R.stripList r).map Region.leaf, ?_, ?_, ?_⟩
  · simp [Region.remove_rect, hsplit]
  · rw [freePtsL_map_leaf, stripList_pts hov]
  · intro c hc
    simp only [List.mem_map] at hc
    obtain ⟨s, hs, rfl⟩ := hc
    simpa [Region.rect] using strip_not_overlaps hs

/-- Witness for C3: carve the rect (1,1)-(3,3) out of the leaf (0,0)-(8,8). -/
theorem spec_C3_witness :
    ((Rect.mk 0 0 8 8).x1 ≤ (Rect.mk 1 1 3 3).x1 ∧
     (Rect.mk 1 1 3 3).x2 ≤ (Rect.mk 0 0 8 8).x2 ∧
     (Rect.mk 0 0 8 8).y1 ≤ (Rect.mk 1 1 3 3).y1 ∧
     (Rect.mk 1 1 3 3).y2 ≤ (Rect.mk 0 0 8 8).y2) ∧
    ((Rect.mk 1 1 3 3).x1 < (Rect.mk 1 1 3 3).x2 ∧
     (Rect.mk 1 1 3 3).y1 < (Rect.mk 1 1 3 3).y2) ∧
    (∃ cs, (Region.leaf (Rect.mk 0 0 8 8)).remove_rect (Rect.mk 1 1 3 3) =
        Region.node (Rect.mk 0 0 8 8) cs ∧
      freePtsL cs = (Rect.mk 0 0 8 8).pts \ (Rect.mk 1 1 3 3).pts ∧
      ∀ c ∈ cs, c.rect.overlaps (Rect.mk 1 1 3 3) = false) :=
  ⟨by decide, by decide, spec_C3 (Rect.mk 0 0 8 8) (Rect.mk 1 1 3 3) (by decide) (by decide)⟩

/-- C2 counterexample: carving the corner rect (0,0)-(4,4) out of the leaf
(0,0)-(8,8) produces the right strip (4,0)-(8,8) and the bottom strip
(0,4)-(8,8) as the internal node's children, and these two children DO
overlap each other (`Rect.split` returns mutually overlapping strips). -/
theorem spec_C2_counterexample :
    ((Region.leaf (Rect.mk 0 0 8 8)).remove_rect (Rect.mk 0 0 4 4)).leafRects =
      [Rect.mk 4 0 8 8, Rect.mk 0 4 8 8] ∧
    Rect.overlaps (Rect.mk 4 0 8 8) (Rect.mk 0 4 8 8) = true ∧
    Rect.split (Rect.mk 0 0 8 8) (Rect.mk 0 0 4 4) =
      some [Rect.mk 4 0 8 8, Rect.mk 0 4 8 8] :=
  ⟨by decide, by decide, by decide⟩

/-- C2 amended: after any sequence of `remove_rect` calls on a region built
from a single leaf, every node satisfies the invariant that its children's
free points are exactly the node's rect minus all previously removed
points (children's rects, however, may overlap each other). -/
theorem spec_C2_amended (R : Rect) (rs : List Rect) :
    Region.freeInv (List.foldl Region.remove_rect (Region.leaf R) rs) (listPts rs) := by
  have h0 : (Region.leaf R).freeInv ∅ := by
    simp only [Region.freeInv]
    exact Set.inter_empty _
  have h := freeInv_foldl rs (Region.leaf R) ∅ trivial h0
  simpa [Set.empty_union] using h

/-- C4 counterexample: on the scenario entries the packer does NOT finish on
a 128-by-128 canvas: the 50-by-50 entry fits neither remaining strip of the
128-by-128 canvas, so the canvas grows once more and the run ends at
256 by 128. -/
theorem spec_C4_counterexample :
    mainPack 8 [ImageEntry.mk 100 100, ImageEntry.mk 50 50, ImageEntry.mk 0 0] =
      .ok (256, 128,
        [(ImageEntry.mk 100 100, Rect.mk 0 0 100 100),
         (ImageEntry.mk 50 50, Rect.mk 100 0 150 50),
         (ImageEntry.mk 0 0, Rect.mk 0 0 0 0)]) ∧
    ((256:Int), (128:Int)) ≠ (128, 128) :=
  ⟨by decide, by decide⟩

/-- C4 amended: on the entries (100,100), (50,50), (0,0) the first entry is
placed at (0,0,100,100) and the zero-area entry at (0,0,0,0), but the
128-by-128 attempt fails, so the final canvas is (256,128) with the
50-by-50 entry at (100,0,150,50). -/
theorem spec_C4_amended :
    mainPack 8 [ImageEntry.mk 100 100, ImageEntry.mk 50 50, ImageEntry.mk 0 0] =
      .ok (256, 128,
        [(ImageEntry.mk 100 100, Rect.mk 0 0 100 100),
         (ImageEntry.mk 50 50, Rect.mk 100 0 150 50),
         (ImageEntry.mk 0 0, Rect.mk 0 0 0 0)]) := by
  decide

/-- C7 counterexample: the entry with cropped size 1-by-0 has zero area but
is NOT assigned the origin rect: it goes through `find_fit` and is assigned
the degenerate rect (0,0,1,0). -/
theorem spec_C7_counterexample :
    (ImageEntry.mk 1 0).area = 0 ∧
    mainPack 4 [ImageEntry.mk 1 0] =
      .ok (1, 1, [(ImageEntry.mk 1 0, Rect.mk 0 0 1 0)]) ∧
    Rect.mk 0 0 1 0 ≠ Rect.mk 0 0 0 0 :=
  ⟨by decide, by decide, by decide⟩

/-- C7 amended: an entry whose ACTUAL size is zero-by-zero is assigned the
degenerate origin rect, its placement never fails (the pass succeeds
exactly when the rest succeeds), and the region tree is left completely
unchanged by its removal. -/
theorem spec_C7_amended (reg : Region) (e : ImageEntry) (es : List ImageEntry)
    (hz : e.actual.1 = 0 ∧ e.actual.2 = 0) (hx : 0 ≤ reg.rect.x1) :
    placeAll reg (e :: es) =
      (placeAll reg es).map (fun prs => (e, Rect.mk 0 0 0 0) :: prs) := by
  simp only [placeAll]
  rw [if_pos (by simp [hz.1, hz.2])]
  dsimp only
  rw [remove_rect_origin reg hx]

/-- Witness for C7 on a 0-by-0 entry over a 4-by-4 leaf region. -/
theorem spec_C7_witness :
    ((ImageEntry.mk 0 0).actual.1 = 0 ∧ (ImageEntry.mk 0 0).actual.2 = 0) ∧
    0 ≤ (Region.leaf (Rect.mk 0 0 4 4)).rect.x1 ∧
    placeAll (Region.leaf (Rect.mk 0 0 4 4)) [ImageEntry.mk 0 0] =
      (placeAll (Region.leaf (Rect.mk 0 0 4 4)) []).map
        (fun prs => (ImageEntry.mk 0 0, Rect.mk 0 0 0 0) :: prs) :=
  ⟨by decide, by decide,
   spec_C7_amended (Region.leaf (Rect.mk 0 0 4 4)) (ImageEntry.mk 0 0) []
     (by decide) (by decide)⟩

/-- C8 counterexample: an entry with negative dimensions is NOT rejected
before packing: the run returns an ordinary result, not an error. -/
theorem spec_C8_counterexample :
    (ImageEntry.mk (-1) (-2)).w < 0 ∧
    mainPack 4 [ImageEntry.mk (-1) (-2)] ≠ .error PackErr.noImages ∧
    mainPack 4 [ImageEntry.mk (-1) (-2)] ≠ .error PackErr.exhausted :=
  ⟨by decide, by decide, by decide⟩

/-- C8 amended: there is no entry validation at all: an entry with negative
dimensions flows through sorting, sizing and placement like any other and
is "placed" at a degenerate rect with negative extent. -/
theorem spec_C8_amended :
    mainPack 4 [ImageEntry.mk (-1) (-2)] =
      .ok (2, 1, [(ImageEntry.mk (-1) (-2), Rect.mk 0 0 (-1) (-2))]) := by
  decide
